import Mathlib

/-!
Verification of the bounded-priority work queue from
`PriorityQueue/priority_queue.py`: the array-of-buckets implementation
(`SimplePriorityQueue`) and the dictionary-of-buckets implementation
(`SimplerPriorityQueue`), embedded shallowly.  Buckets store their items
newest-first (`insert(0, x)`); `pop` removes from the back of the first
non-empty bucket in ascending priority order.
-/

/-- An exception escaping `add`: a Python `TypeError`, distinguished by its
message text. -/
inductive AddError where
  | malformed
  | outOfRange
deriving DecidableEq

/-- The single argument of `add`: either a Python `dict` mapping integer
priorities to string commands (given as its entry list), or any non-dict
value. -/
inductive PyArg where
  | dict : List (Int × String) → PyArg
  | nonDict : PyArg
deriving DecidableEq

/-- `SimplePriorityQueue.q`: a list of 11 buckets; each bucket stores
`(priority, command)` tuples, newest first. -/
abbrev SimpleQ := List (List (Int × String))

/-- `SimplerPriorityQueue.q`: a dict from priority to commands (newest
first), modelled as an insertion-ordered association list. -/
abbrev SimplerQ := List (Int × List String)

/-- Python list indexing `q[i]` for a list of length `n`: negative indices
count from the back; `none` models an `IndexError`. -/
def pyIndex (n : Nat) (i : Int) : Option Nat :=
  if 0 ≤ i ∧ i < n then some i.toNat
  else if i < 0 ∧ 0 ≤ i + n then some (i + n).toNat
  else none

/-- A call against the queue API. -/
inductive Op where
  | add : PyArg → Op
  | pop : Op
deriving DecidableEq

/-- A valid call: `pop`, or `add` with a single-entry dict whose integer
priority lies in `[0,10]`. -/
def ValidOp : Op → Prop
  | .add (.dict [(p, _)]) => 0 ≤ p ∧ p < 11
  | .add _ => False
  | .pop => True

namespace SimplePriorityQueue

/-- `__init__`: `self.q = [[] for i in range(11)]`. -/
def init : SimpleQ := List.replicate 11 []

/-- `add`: a non-dict or a dict without exactly one entry raises
`TypeError("Expected {int: command}")`; otherwise the bucket list is indexed
with the key and `(priority, command)` is inserted at position 0 of that
bucket.  An `IndexError` (priority ≥ 11 or < -11) is caught inside `add` and
only a warning is printed, so the call returns normally with the queue
unchanged. -/
def add (q : SimpleQ) (item : PyArg) : Except AddError SimpleQ :=
  match item with
  | .dict [(priority, command)] =>
    match pyIndex q.length priority with
    | some i => .ok (q.set i ((priority, command) :: q.getD i []))
    | none => .ok q
  | _ => .error .malformed

/-- The scan `for i in range(11): ...` of `pop`, structurally over the bucket
list: `register.pop()` takes the last element of the first non-empty
bucket. -/
def popScan : List (List (Int × String)) → Option (Int × String) × List (List (Int × String))
  | [] => (none, [])
  | b :: rest =>
    match b.getLast? with
    | some x => (some x, b.dropLast :: rest)
    | none =>
      let r := popScan rest
      (r.1, b :: r.2)

/-- `pop`: remove and return the last tuple of the lowest-indexed non-empty
bucket, or `None` when every bucket is empty. -/
def pop (q : SimpleQ) : Option (Int × String) × SimpleQ := popScan q

/-- Run a call sequence from a state: an `add` that raises leaves the state
unchanged for the continuation; each `pop` records its result. -/
def exec (q : SimpleQ) : List Op → SimpleQ × List (Option (Int × String))
  | [] => (q, [])
  | .add a :: ops =>
    match add q a with
    | .ok q' => exec q' ops
    | .error _ => exec q ops
  | .pop :: ops =>
    let r := exec (pop q).2 ops
    (r.1, (pop q).1 :: r.2)

/-- Total number of queued items. -/
def size (q : SimpleQ) : Nat := (q.map List.length).sum

/-- The drain loop `item = PQ.pop(); while item: ... item = PQ.pop()`, with
explicit fuel. -/
def drainAux : Nat → SimpleQ → List (Int × String) × SimpleQ
  | 0, q => ([], q)
  | fuel + 1, q =>
    match pop q with
    | (none, q') => ([], q')
    | (some x, q') =>
      let r := drainAux fuel q'
      (x :: r.1, r.2)

/-- Full drain: `size q` rounds of `pop` always suffice. -/
def drain (q : SimpleQ) : List (Int × String) := (drainAux (size q) q).1

/-- `add` restricted to the valid calling convention `{p: c}`. -/
def addPair (q : SimpleQ) (a : Int × String) : SimpleQ :=
  match add q (.dict [a]) with
  | .ok q' => q'
  | .error _ => q

/-- Fill an initially empty queue by successive `add` calls. -/
def build (adds : List (Int × String)) : SimpleQ := adds.foldl addPair init

end SimplePriorityQueue

namespace SimplerPriorityQueue

/-- `__init__`: `self.q = {}`. -/
def init : SimplerQ := []

/-- Dict read `self.q.get(i)` / `self.q[i]` on the model: first entry with
the key. -/
def getBucket : SimplerQ → Int → Option (List String)
  | [], _ => none
  | kv :: rest, p => if kv.1 = p then some kv.2 else getBucket rest p

/-- In-place replacement of the value stored under an existing key. -/
def setBucket (q : SimplerQ) (p : Int) (v : List String) : SimplerQ :=
  q.map fun kv => if kv.1 = p then (p, v) else kv

/-- `add`: validate the argument shape (`TypeError("Expected {int:
command}")`), then the priority (`type(priority) is not int or priority not
in range(11)` raises `TypeError("Expected integer priority in [0,10]")`),
then insert the command at position 0 of the key's list, creating the key if
absent. -/
def add (q : SimplerQ) (item : PyArg) : Except AddError SimplerQ :=
  match item with
  | .dict [(priority, command)] =>
    if 0 ≤ priority ∧ priority < 11 then
      match getBucket q priority with
      | some cmds => .ok (setBucket q priority (command :: cmds))
      | none => .ok (q ++ [(priority, [command])])
    else .error .outOfRange
  | _ => .error .malformed

/-- The scan `for i in sorted(self.q.keys())` of `pop`, over a given key
list: skip keys whose register is missing or empty
(`if not register: continue`); at the first hit return `(i,
register.pop())`. -/
def popKeys (q : SimplerQ) : List Int → Option (Int × String) × SimplerQ
  | [] => (none, q)
  | i :: rest =>
    match (getBucket q i).getD [] with
    | [] => popKeys q rest
    | c :: cs =>
      (some (i, (c :: cs).getLast (List.cons_ne_nil c cs)),
       setBucket q i ((c :: cs).dropLast))

/-- `pop`: scan the keys in sorted order; pop the last command of the first
non-empty register, or return `None`. -/
def pop (q : SimplerQ) : Option (Int × String) × SimplerQ :=
  popKeys q (List.insertionSort (· ≤ ·) (q.map Prod.fst))

/-- Run a call sequence from a state, recording each `pop` result. -/
def exec (q : SimplerQ) : List Op → SimplerQ × List (Option (Int × String))
  | [] => (q, [])
  | .add a :: ops =>
    match add q a with
    | .ok q' => exec q' ops
    | .error _ => exec q ops
  | .pop :: ops =>
    let r := exec (pop q).2 ops
    (r.1, (pop q).1 :: r.2)

/-- Total number of queued items. -/
def size (q : SimplerQ) : Nat := (q.map fun kv => kv.2.length).sum

/-- The drain loop with explicit fuel. -/
def drainAux : Nat → SimplerQ → List (Int × String) × SimplerQ
  | 0, q => ([], q)
  | fuel + 1, q =>
    match pop q with
    | (none, q') => ([], q')
    | (some x, q') =>
      let r := drainAux fuel q'
      (x :: r.1, r.2)

/-- Full drain: `size q` rounds of `pop` always suffice. -/
def drain (q : SimplerQ) : List (Int × String) := (drainAux (size q) q).1

/-- `add` restricted to the valid calling convention `{p: c}`. -/
def addPair (q : SimplerQ) (a : Int × String) : SimplerQ :=
  match add q (.dict [a]) with
  | .ok q' => q'
  | .error _ => q

/-- Fill an initially empty queue by successive `add` calls. -/
def build (adds : List (Int × String)) : SimplerQ := adds.foldl addPair init

end SimplerPriorityQueue

/-- The call sequence of the spec's concrete scenario, followed by a full
drain (six items, then one more `pop` for the empty signal). -/
def scenarioOps : List Op :=
  [.add (.dict [(7, "one")]), .add (.dict [(0, "three")]),
   .add (.dict [(0, "five")]), .add (.dict [(7, "three")]),
   .add (.dict [(9, "one")]), .add (.dict [(2, "three")]),
   .pop, .pop, .pop, .pop, .pop, .pop, .pop]

/-- The pop results the spec's concrete scenario prescribes. -/
def scenarioOut : List (Option (Int × String)) :=
  [some (0, "three"), some (0, "five"), some (2, "three"),
   some (7, "one"), some (7, "three"), some (9, "one"), none]

/-- The contents of a bucket queue in drain order: each bucket oldest-first,
buckets in ascending index order. -/
def simpleFlat (q : SimpleQ) : List (Int × String) := (q.map List.reverse).flatten

/-- Every stored tuple carries, as its first component, the index of the
bucket holding it. -/
def TagInv (q : SimpleQ) : Prop :=
  ∀ i, i < q.length → ∀ x ∈ q.getD i [], x.1 = (i : Int)

/-- The priority indices `0,...,10` as integers. -/
def intRange11 : List Int := (List.range 11).map (fun n : Nat => (n : Int))

/-- Keys of a well-formed dict state: all in `[0,11)` and distinct. -/
def KeysGood (q : SimplerQ) : Prop :=
  (∀ kv ∈ q, 0 ≤ kv.1 ∧ kv.1 < 11) ∧ (q.map Prod.fst).Nodup

/-- `SimplePriorityQueue.popScan` viewed as a scan over explicit bucket
indices. -/
def idxScan (s : SimpleQ) : List Nat → Option (Int × String) × SimpleQ
  | [] => (none, s)
  | i :: rest =>
    match (s.getD i []).getLast? with
    | some x => (some x, s.set i ((s.getD i []).dropLast))
    | none => idxScan s rest

/-- The simulation relation between the two implementations: the array state
has its 11 buckets, keys of the dict are well formed, and bucket `i` of the
array is the dict's register for key `i`, each command tagged with the
priority. -/
structure SimRel (s : SimpleQ) (t : SimplerQ) : Prop where
  len : s.length = 11
  keys : KeysGood t
  buckets : ∀ i : Nat, i < 11 →
    s.getD i [] =
      ((SimplerPriorityQueue.getBucket t (i : Int)).getD []).map
        (fun c => ((i : Int), c))

/-- The commands added at priority `p` by a call sequence, in call order. -/
def addsAt (p : Int) (ops : List Op) : List String :=
  ops.filterMap fun op =>
    match op with
    | .add (.dict [(q, c)]) => if q = p then some c else none
    | _ => none

/-- The commands returned at priority `p` by a sequence of pop results, in
order. -/
def popsAt (p : Int) (outs : List (Option (Int × String))) : List String :=
  outs.filterMap fun o =>
    match o with
    | some (q, c) => if q = p then some c else none
    | _ => none

/-- A state of the array implementation produced by some call sequence from a
fresh queue. -/
def ReachableSimple (s : SimpleQ) : Prop :=
  ∃ ops : List Op, (SimplePriorityQueue.exec SimplePriorityQueue.init ops).1 = s

/-- A state of the dict implementation produced by some call sequence from a
fresh queue. -/
def ReachableSimpler (t : SimplerQ) : Prop :=
  ∃ ops : List Op, (SimplerPriorityQueue.exec SimplerPriorityQueue.init ops).1 = t

/-- An `add` argument that cannot be associated with exactly one priority: a
non-mapping value, or a mapping with zero or at least two entries. -/
def MalformedArg : PyArg → Prop
  | .dict l => l.length ≠ 1
  | .nonDict => True


/-! ### Generic list helpers -/

theorem getD_set_self {β : Type} (s : List β) (i : Nat) (v d : β) (h : i < s.length) :
    (s.set i v).getD i d = v := by
  induction s generalizing i with
  | nil => simp at h
  | cons b rest ih =>
    cases i with
    | zero => simp
    | succ n => simpa using ih n (by simpa using h)

theorem getD_set_ne {β : Type} (s : List β) (i j : Nat) (v d : β) (h : i ≠ j) :
    (s.set i v).getD j d = s.getD j d := by
  induction s generalizing i j with
  | nil => simp
  | cons b rest ih =>
    cases i with
    | zero => cases j with
      | zero => exact absurd rfl h
      | succ m => simp
    | succ n => cases j with
      | zero => simp
      | succ m => simpa using ih n m (by omega)

/-! ### Array-of-buckets implementation: pop and drain structure -/


section SimpleLemmas
open SimplePriorityQueue

theorem simple_flat_cons (b : List (Int × String)) (rest : SimpleQ) :
    simpleFlat (b :: rest) = b.reverse ++ simpleFlat rest := by
  simp [simpleFlat]

theorem simple_popScan_none_iff (q : SimpleQ) :
    (popScan q).1 = none ↔ ∀ b ∈ q, b = [] := by
  induction q with
  | nil => simp [popScan]
  | cons b rest ih =>
    cases h : b.getLast? with
    | some x =>
      have hbne : b ≠ [] := fun h0 => by subst h0; simp at h
      constructor
      · intro hf
        simp [popScan, h] at hf
      · intro hall
        exact absurd (hall b (by simp)) hbne
    | none =>
      have hb : b = [] := List.getLast?_eq_none_iff.1 h
      simp [popScan, h, hb, ih]

theorem simple_popScan_none_state (q : SimpleQ) (h : (popScan q).1 = none) :
    (popScan q).2 = q := by
  induction q with
  | nil => simp [popScan]
  | cons b rest ih =>
    cases hb : b.getLast? with
    | some x => simp [popScan, hb] at h
    | none =>
      simp only [popScan, hb] at h ⊢
      simpa using ih h

theorem simple_popScan_some (q : SimpleQ) (x : Int × String) (q' : SimpleQ)
    (h : popScan q = (some x, q')) :
    simpleFlat q = x :: simpleFlat q' ∧ size q = size q' + 1 ∧ q'.length = q.length := by
  induction q generalizing q' with
  | nil => simp [popScan] at h
  | cons b rest ih =>
    cases hb : b.getLast? with
    | some y =>
      simp only [popScan, hb] at h
      rw [Prod.mk.injEq] at h
      obtain ⟨hy, hq'⟩ := h
      obtain rfl : y = x := Option.some.inj hy
      have hbne : b ≠ [] := by
        intro hb'; subst hb'; simp at hb
      have hsplit : b.dropLast ++ [y] = b := List.dropLast_append_getLast? y hb
      subst hq'
      refine ⟨?_, ?_, by simp⟩
      · rw [simple_flat_cons, simple_flat_cons]
        conv_lhs => rw [← hsplit]
        simp
      · simp only [size, List.map_cons, List.sum_cons]
        have : b.length = b.dropLast.length + 1 := by
          have := List.length_dropLast b
          have hpos : 0 < b.length := List.length_pos.2 hbne
          omega
        omega
    | none =>
      have hb0 : b = [] := List.getLast?_eq_none_iff.1 hb
      simp only [popScan, hb] at h
      rw [Prod.mk.injEq] at h
      obtain ⟨h1, h2⟩ := h
      have hpr : popScan rest = (some x, (popScan rest).2) := by rw [← h1]
      obtain ⟨f, s, l⟩ := ih (popScan rest).2 hpr
      subst hb0
      refine ⟨?_, ?_, ?_⟩
      · rw [← h2]; simpa [simple_flat_cons] using f
      · rw [← h2]; simpa [size] using s
      · rw [← h2]; simpa using l

theorem simple_popScan_char (q : SimpleQ) (x : Int × String) (q' : SimpleQ)
    (h : popScan q = (some x, q')) :
    ∃ i, i < q.length ∧ (∀ j, j < i → q.getD j [] = []) ∧ q.getD i [] ≠ [] ∧
      (q.getD i []).getLast? = some x ∧ q' = q.set i ((q.getD i []).dropLast) := by
  induction q generalizing q' with
  | nil => simp [popScan] at h
  | cons b rest ih =>
    cases hb : b.getLast? with
    | some y =>
      simp only [popScan, hb] at h
      rw [Prod.mk.injEq] at h
      obtain ⟨hy, hq'⟩ := h
      obtain rfl : y = x := Option.some.inj hy
      have hbne : b ≠ [] := by
        intro hb'; subst hb'; simp at hb
      refine ⟨0, by simp, ?_, by simpa using hbne, by simpa using hb, by simpa using hq'.symm⟩
      intro j hj
      exact absurd hj (by omega)
    | none =>
      have hb0 : b = [] := List.getLast?_eq_none_iff.1 hb
      simp only [popScan, hb] at h
      rw [Prod.mk.injEq] at h
      obtain ⟨h1, h2⟩ := h
      have hpr : popScan rest = (some x, (popScan rest).2) := by rw [← h1]
      obtain ⟨i, hlen, hbelow, hne, hlast, hset⟩ := ih (popScan rest).2 hpr
      refine ⟨i + 1, by simpa using hlen, ?_, by simpa using hne, by simpa using hlast, ?_⟩
      · intro j hj
        cases j with
        | zero => simpa using hb0
        | succ m => simpa using hbelow m (by omega)
      · rw [← h2, hset]; simp

theorem getD_replicate_nil {α : Type} (n i : Nat) :
    (List.replicate n ([] : List α)).getD i [] = [] := by
  induction n generalizing i with
  | zero => simp
  | succ m ih =>
    cases i with
    | zero => simp [List.replicate_succ]
    | succ j =>
      rw [List.replicate_succ, List.getD_cons_succ]
      exact ih j

theorem simple_drainAux_flat :
    ∀ (fuel : Nat) (q : SimpleQ), size q ≤ fuel →
      drainAux fuel q = (simpleFlat q, List.replicate q.length []) := by
  intro fuel
  induction fuel with
  | zero =>
    intro q h
    have hz : size q = 0 := Nat.le_zero.1 h
    have hall : ∀ b ∈ q, b = [] := by
      intro b hb
      have hz' : (q.map List.length).sum = 0 := hz
      have := List.sum_eq_zero_iff.1 hz' b.length (List.mem_map_of_mem _ hb)
      simpa using this
    have hflat : simpleFlat q = [] := by
      rw [simpleFlat, List.flatten_eq_nil_iff]
      intro l hl
      obtain ⟨b, hb, rfl⟩ := List.mem_map.1 hl
      simp [hall b hb]
    have hrep : q = List.replicate q.length [] := List.eq_replicate_length.2 hall
    rw [drainAux, hflat, ← hrep]
  | succ n ih =>
    intro q h
    rcases hp : pop q with ⟨r, q'⟩
    cases r with
    | none =>
      have h1 : (popScan q).1 = none := by rw [show popScan q = pop q from rfl, hp]
      have hall : ∀ b ∈ q, b = [] := (simple_popScan_none_iff q).1 h1
      have h2 : q' = q := by
        have := simple_popScan_none_state q h1
        rw [show popScan q = pop q from rfl, hp] at this
        exact this.symm ▸ rfl
      have hflat : simpleFlat q = [] := by
        rw [simpleFlat, List.flatten_eq_nil_iff]
        intro l hl
        obtain ⟨b, hb, rfl⟩ := List.mem_map.1 hl
        simp [hall b hb]
      have hrep : q = List.replicate q.length [] := List.eq_replicate_length.2 hall
      simp only [drainAux, hp, hflat]
      rw [h2, ← hrep]
    | some x =>
      obtain ⟨hf, hs, hl⟩ := simple_popScan_some q x q' hp
      have hle : size q' ≤ n := by omega
      simp only [drainAux, hp, ih q' hle, hf, hl]

theorem simple_drain_eq_flat (q : SimpleQ) : drain q = simpleFlat q := by
  rw [drain, simple_drainAux_flat (size q) q le_rfl]

theorem simple_add_valid (q : SimpleQ) (p : Int) (c : String) (h0 : 0 ≤ p)
    (h1 : p < (q.length : Int)) :
    add q (.dict [(p, c)]) = .ok (q.set p.toNat ((p, c) :: q.getD p.toNat [])) := by
  simp [add, pyIndex, h0, h1]

theorem simple_addPair_valid (q : SimpleQ) (a : Int × String) (h0 : 0 ≤ a.1)
    (h1 : a.1 < (q.length : Int)) :
    addPair q a = q.set a.1.toNat ((a.1, a.2) :: q.getD a.1.toNat []) := by
  rw [addPair]
  rw [show PyArg.dict [a] = PyArg.dict [(a.1, a.2)] by simp]
  rw [simple_add_valid q a.1 a.2 h0 h1]

theorem simple_addPair_length (q : SimpleQ) (a : Int × String) :
    (addPair q a).length = q.length := by
  obtain ⟨p, c⟩ := a
  rw [addPair, add]
  cases hpi : pyIndex q.length p with
  | none => simp
  | some i => simp

theorem simple_foldl_length (adds : List (Int × String)) :
    ∀ q : SimpleQ, (adds.foldl addPair q).length = q.length := by
  induction adds with
  | nil => intro q; rfl
  | cons a as ih =>
    intro q
    rw [List.foldl_cons, ih (addPair q a), simple_addPair_length]

theorem simple_build_length (adds : List (Int × String)) : (build adds).length = 11 := by
  rw [build, simple_foldl_length]
  simp [init]


theorem simple_tagInv_init : TagInv SimplePriorityQueue.init := by
  intro i hi x hx
  rw [init, getD_replicate_nil] at hx
  simp at hx

theorem simple_addPair_tagInv (q : SimpleQ) (a : Int × String) (hq : TagInv q)
    (h0 : 0 ≤ a.1) : TagInv (addPair q a) := by
  obtain ⟨p, c⟩ := a
  rw [addPair, add]
  cases hpi : pyIndex q.length p with
  | none => simp only []; exact hq
  | some i =>
    have hi : i = p.toNat ∧ p < (q.length : Int) := by
      rw [pyIndex] at hpi
      split at hpi
      · rename_i hcond
        exact ⟨(Option.some.inj hpi).symm, hcond.2⟩
      · split at hpi
        · rename_i h1 h2
          exact absurd h2.1 (by omega)
        · exact absurd hpi (by simp)
    obtain ⟨rfl, hplen⟩ := hi
    intro j hj x hx
    simp only [List.length_set] at hj
    by_cases hji : j = p.toNat
    · subst hji
      rw [getD_set_self _ _ _ _ (by simp at h0 hplen ⊢; omega)] at hx
      rcases List.mem_cons.1 hx with rfl | hx'
      · simp at h0 ⊢
        omega
      · exact hq _ hj x hx'
    · rw [getD_set_ne _ _ _ _ _ (fun he => hji he.symm)] at hx
      exact hq _ hj x hx

theorem simple_foldl_tagInv (adds : List (Int × String)) :
    ∀ q : SimpleQ, TagInv q → (∀ a ∈ adds, 0 ≤ a.1) →
      TagInv (adds.foldl addPair q) := by
  induction adds with
  | nil => intro q hq _; exact hq
  | cons a as ih =>
    intro q hq h
    rw [List.foldl_cons]
    exact ih (addPair q a) (simple_addPair_tagInv q a hq (h a (by simp)))
      (fun b hb => h b (by simp [hb]))

theorem simple_mem_flat {q : SimpleQ} {y : Int × String} (h : y ∈ simpleFlat q) :
    ∃ j, j < q.length ∧ y ∈ q.getD j [] := by
  induction q with
  | nil => simp [simpleFlat] at h
  | cons b rest ih =>
    rw [simple_flat_cons] at h
    rcases List.mem_append.1 h with hb | hr
    · exact ⟨0, by simp, by simpa using List.mem_reverse.1 hb⟩
    · obtain ⟨j, hj, hmem⟩ := ih hr
      exact ⟨j + 1, by simpa using hj, by simpa using hmem⟩

theorem simple_flat_pairwise_aux :
    ∀ (q : SimpleQ) (base : Int),
      (∀ i, i < q.length → ∀ x ∈ q.getD i [], x.1 = base + i) →
      (simpleFlat q).Pairwise (fun x y => x.1 ≤ y.1) := by
  intro q
  induction q with
  | nil => intro base _; simp [simpleFlat]
  | cons b rest ih =>
    intro base h
    rw [simple_flat_cons, List.pairwise_append]
    refine ⟨?_, ?_, ?_⟩
    · apply List.pairwise_of_forall_mem_list
      intro u hu v hv
      have hu' : u.1 = base := by
        simpa using h 0 (by simp) u (by simpa using List.mem_reverse.1 hu)
      have hv' : v.1 = base := by
        simpa using h 0 (by simp) v (by simpa using List.mem_reverse.1 hv)
      rw [hu', hv']
    · apply ih (base + 1)
      intro i hi x hx
      have := h (i + 1) (by simpa using hi) x (by simpa using hx)
      rw [this]
      push_cast
      ring
    · intro u hu v hv
      have hu' : u.1 = base := by
        simpa using h 0 (by simp) u (by simpa using List.mem_reverse.1 hu)
      obtain ⟨j, hj, hmem⟩ := simple_mem_flat hv
      have hv' : v.1 = base + (1 + j : Nat) := by
        have := h (j + 1) (by simpa using hj) v (by simpa using hmem)
        rw [this]
        push_cast
        ring
      rw [hu', hv']
      have : (0 : Int) ≤ (1 + j : Nat) := by positivity
      omega

theorem simple_flat_sorted (q : SimpleQ) (h : TagInv q) :
    ((simpleFlat q).map Prod.fst).Sorted (· ≤ ·) := by
  rw [List.Sorted, List.pairwise_map]
  exact simple_flat_pairwise_aux q 0 (by
    intro i hi x hx
    simpa using h i hi x hx)

theorem simple_flat_set_cons (q : SimpleQ) (i : Nat) (x : Int × String)
    (h : i < q.length) :
    List.Perm (simpleFlat (q.set i (x :: q.getD i []))) (x :: simpleFlat q) := by
  induction q generalizing i with
  | nil => simp at h
  | cons b rest ih =>
    cases i with
    | zero =>
      simp only [List.getD_cons_zero, List.set_cons_zero]
      rw [simple_flat_cons, simple_flat_cons, List.reverse_cons, List.append_assoc]
      exact List.perm_middle
    | succ n =>
      simp only [List.getD_cons_succ, List.set_cons_succ]
      rw [simple_flat_cons, simple_flat_cons]
      exact (List.Perm.append_left b.reverse (ih n (by simpa using h))).trans
        List.perm_middle

theorem simple_foldl_flat_perm :
    ∀ (adds : List (Int × String)) (q : SimpleQ),
      q.length = 11 → (∀ a ∈ adds, 0 ≤ a.1 ∧ a.1 < 11) →
      List.Perm (simpleFlat (adds.foldl addPair q)) (adds ++ simpleFlat q) := by
  intro adds
  induction adds with
  | nil => intro q _ _; simp
  | cons a as ih =>
    intro q hlen h
    have ha := h a (by simp)
    have hstep : addPair q a = q.set a.1.toNat ((a.1, a.2) :: q.getD a.1.toNat []) :=
      simple_addPair_valid q a ha.1 (by rw [hlen]; exact_mod_cast ha.2)
    have hperm1 : List.Perm (simpleFlat (addPair q a)) (a :: simpleFlat q) := by
      rw [hstep]
      have hidx : a.1.toNat < q.length := by
        rw [hlen]
        omega
      simpa using simple_flat_set_cons q a.1.toNat (a.1, a.2) hidx
    have hlen' : (addPair q a).length = 11 := by
      rw [simple_addPair_length]
      exact hlen
    show List.Perm (simpleFlat (as.foldl addPair (addPair q a))) ((a :: as) ++ simpleFlat q)
    exact ((ih (addPair q a) hlen' (fun b hb => h b (by simp [hb]))).trans
      (List.Perm.append_left as hperm1)).trans List.perm_middle

end SimpleLemmas

/-! ### Dictionary-of-buckets implementation: dict and scan structure -/

section SimplerLemmas
open SimplerPriorityQueue

theorem setBucket_keys (q : SimplerQ) (p : Int) (v : List String) :
    (setBucket q p v).map Prod.fst = q.map Prod.fst := by
  induction q with
  | nil => rfl
  | cons kv rest ih =>
    by_cases h : kv.1 = p
    · simp [setBucket, h, ← ih, setBucket]
    · simp only [setBucket, List.map_cons] at ih ⊢
      simp [h, ih]

theorem getBucket_setBucket_self (q : SimplerQ) (p : Int) (v w : List String)
    (h : getBucket q p = some w) : getBucket (setBucket q p v) p = some v := by
  induction q with
  | nil => simp [getBucket] at h
  | cons kv rest ih =>
    by_cases hk : kv.1 = p
    · simp [getBucket, setBucket, hk]
    · rw [getBucket, if_neg hk] at h
      simp only [setBucket, List.map_cons, if_neg hk]
      rw [getBucket, if_neg hk]
      exact ih h

theorem getBucket_setBucket_ne (q : SimplerQ) (p x : Int) (v : List String)
    (h : x ≠ p) : getBucket (setBucket q p v) x = getBucket q x := by
  induction q with
  | nil => rfl
  | cons kv rest ih =>
    by_cases hk : kv.1 = p
    · simp only [setBucket, List.map_cons, if_pos hk]
      rw [getBucket, getBucket, if_neg (fun he => h he.symm), if_neg (by rw [hk]; exact fun he => h he.symm)]
      exact ih
    · simp only [setBucket, List.map_cons, if_neg hk]
      rw [getBucket, getBucket]
      by_cases hx : kv.1 = x
      · simp [hx]
      · rw [if_neg hx, if_neg hx]
        exact ih

theorem setBucket_not_mem (q : SimplerQ) (p : Int) (v : List String)
    (h : p ∉ q.map Prod.fst) : setBucket q p v = q := by
  induction q with
  | nil => rfl
  | cons kv rest ih =>
    simp only [List.map_cons, List.mem_cons] at h
    push_neg at h
    have h1 : ¬ kv.1 = p := fun he => h.1 he.symm
    show (if kv.1 = p then (p, v) else kv) :: setBucket rest p v = kv :: rest
    rw [if_neg h1, ih h.2]

theorem getBucket_eq_none_iff (q : SimplerQ) (x : Int) :
    getBucket q x = none ↔ x ∉ q.map Prod.fst := by
  induction q with
  | nil => simp [getBucket]
  | cons kv rest ih =>
    rw [getBucket, List.map_cons, List.mem_cons]
    by_cases hk : kv.1 = x
    · rw [if_pos hk]
      simp [hk]
    · rw [if_neg hk, ih]
      constructor
      · intro hnot hmem
        rcases hmem with he | hm
        · exact hk he.symm
        · exact hnot hm
      · intro hnot hm
        exact hnot (Or.inr hm)

theorem getBucket_some_mem (q : SimplerQ) (x : Int) (v : List String)
    (h : getBucket q x = some v) : (x, v) ∈ q := by
  induction q with
  | nil => simp [getBucket] at h
  | cons kv rest ih =>
    rw [getBucket] at h
    by_cases hk : kv.1 = x
    · rw [if_pos hk] at h
      have hkv : kv = (x, v) := by
        obtain ⟨a, b⟩ := kv
        simp only at hk h
        subst hk
        rw [Option.some.inj h]
      exact List.mem_cons.2 (Or.inl hkv.symm)
    · rw [if_neg hk] at h
      exact List.mem_cons_of_mem _ (ih h)

theorem getBucket_append_of_some (q r : SimplerQ) (x : Int) (v : List String)
    (h : getBucket q x = some v) : getBucket (q ++ r) x = some v := by
  induction q with
  | nil => simp [getBucket] at h
  | cons kv rest ih =>
    rw [getBucket] at h
    rw [List.cons_append, getBucket]
    by_cases hk : kv.1 = x
    · rwa [if_pos hk] at h ⊢
    · rw [if_neg hk] at h ⊢
      exact ih h

theorem getBucket_append_of_none (q : SimplerQ) (kv : Int × List String) (x : Int)
    (h : getBucket q x = none) :
    getBucket (q ++ [kv]) x = if kv.1 = x then some kv.2 else none := by
  induction q with
  | nil => simp [getBucket]
  | cons kv' rest ih =>
    rw [getBucket] at h
    rw [List.cons_append, getBucket]
    by_cases hk : kv'.1 = x
    · rw [if_pos hk] at h
      exact absurd h (by simp)
    · rw [if_neg hk] at h ⊢
      exact ih h

theorem getBucket_of_nodup (q : SimplerQ) (kv : Int × List String)
    (hnd : (q.map Prod.fst).Nodup) (h : kv ∈ q) : getBucket q kv.1 = some kv.2 := by
  induction q with
  | nil => simp at h
  | cons kv' rest ih =>
    rw [List.map_cons, List.nodup_cons] at hnd
    rcases List.mem_cons.1 h with rfl | hmem
    · rw [getBucket, if_pos rfl]
    · rw [getBucket]
      by_cases hk : kv'.1 = kv.1
      · exact absurd (hk ▸ (List.mem_map_of_mem Prod.fst hmem)) hnd.1
      · rw [if_neg hk]
        exact ih hnd.2 hmem

theorem popKeys_none_iff (q : SimplerQ) :
    ∀ l : List Int, (popKeys q l).1 = none ↔ ∀ i ∈ l, (getBucket q i).getD [] = [] := by
  intro l
  induction l with
  | nil => simp [popKeys]
  | cons i rest ih =>
    cases hb : (getBucket q i).getD [] with
    | nil =>
      rw [popKeys]
      rw [hb]
      constructor
      · intro h j hj
        rcases List.mem_cons.1 hj with rfl | hj'
        · exact hb
        · exact (ih.1 h) j hj'
      · intro h
        exact ih.2 (fun j hj => h j (List.mem_cons_of_mem _ hj))
    | cons c cs =>
      rw [popKeys, hb]
      constructor
      · intro h
        simp at h
      · intro h
        have := h i (by simp)
        rw [hb] at this
        simp at this

theorem popKeys_none_state (q : SimplerQ) :
    ∀ l : List Int, (popKeys q l).1 = none → (popKeys q l).2 = q := by
  intro l
  induction l with
  | nil => intro _; rfl
  | cons i rest ih =>
    intro h
    cases hb : (getBucket q i).getD [] with
    | nil =>
      rw [popKeys, hb] at h ⊢
      exact ih h
    | cons c cs =>
      rw [popKeys, hb] at h
      simp at h

theorem popKeys_some_char (q : SimplerQ) :
    ∀ (l : List Int) (i : Int) (c : String) (q' : SimplerQ),
      popKeys q l = (some (i, c), q') →
      ∃ l₁ l₂, l = l₁ ++ i :: l₂ ∧ (∀ j ∈ l₁, (getBucket q j).getD [] = []) ∧
        (getBucket q i).getD [] ≠ [] ∧
        ((getBucket q i).getD []).getLast? = some c ∧
        q' = setBucket q i (((getBucket q i).getD []).dropLast) := by
  intro l
  induction l with
  | nil =>
    intro i c q' h
    rw [popKeys] at h
    simp at h
  | cons j rest ih =>
    intro i c q' h
    cases hb : (getBucket q j).getD [] with
    | nil =>
      rw [popKeys, hb] at h
      obtain ⟨l₁, l₂, hsplit, hempty, hne, hlast, hstate⟩ := ih i c q' h
      refine ⟨j :: l₁, l₂, by rw [hsplit, List.cons_append], ?_, hne, hlast, hstate⟩
      intro k hk
      rcases List.mem_cons.1 hk with rfl | hk'
      · exact hb
      · exact hempty k hk'
    | cons c0 cs =>
      rw [popKeys, hb] at h
      rw [Prod.mk.injEq] at h
      obtain ⟨h1, h2⟩ := h
      obtain ⟨rfl, rfl⟩ : j = i ∧ (c0 :: cs).getLast (List.cons_ne_nil c0 cs) = c := by
        have := Option.some.inj h1
        exact ⟨congrArg Prod.fst this, congrArg Prod.snd this⟩
      refine ⟨[], rest, rfl, by simp, by rw [hb]; simp, ?_, ?_⟩
      · rw [hb]
        exact List.getLast?_eq_getLast _ _
      · rw [← h2, hb]

theorem popKeys_keys (q : SimplerQ) :
    ∀ l : List Int, ((popKeys q l).2).map Prod.fst = q.map Prod.fst := by
  intro l
  induction l with
  | nil => rfl
  | cons i rest ih =>
    cases hb : (getBucket q i).getD [] with
    | nil => rw [popKeys, hb]; exact ih
    | cons c cs => rw [popKeys, hb]; exact setBucket_keys q i _

end SimplerLemmas

/-! ### Sorted key scan equals fixed-range scan -/


theorem mem_intRange11 (x : Int) : x ∈ intRange11 ↔ 0 ≤ x ∧ x < 11 := by
  constructor
  · intro h
    obtain ⟨n, hn, rfl⟩ := List.mem_map.1 h
    have := List.mem_range.1 hn
    omega
  · intro hx
    exact List.mem_map.2 ⟨x.toNat, List.mem_range.2 (by omega), by omega⟩

theorem intRange11_pairwise : intRange11.Pairwise (· < ·) :=
  List.Pairwise.map (fun n : Nat => (n : Int))
    (fun a b h => by
      show (a : Int) < (b : Int)
      exact_mod_cast h)
    (List.pairwise_lt_range 11)

theorem intRange11_nodup : intRange11.Nodup :=
  intRange11_pairwise.imp (fun h => ne_of_lt h)

theorem sorted_lt_sublist :
    ∀ (L l : List Int), l.Pairwise (· < ·) → L.Pairwise (· < ·) →
      (∀ x ∈ l, x ∈ L) → l.Sublist L := by
  intro L
  induction L with
  | nil =>
    intro l _ _ hsub
    cases l with
    | nil => exact List.Sublist.refl []
    | cons a l' => exact absurd (hsub a (by simp)) (by simp)
  | cons b L' ihL =>
    intro l hl hL hsub
    cases l with
    | nil => exact List.nil_sublist _
    | cons a l' =>
      obtain ⟨hla, hl'⟩ := List.pairwise_cons.1 hl
      obtain ⟨hLb, hL'⟩ := List.pairwise_cons.1 hL
      by_cases hab : a = b
      · subst hab
        refine List.Sublist.cons₂ a (ihL l' hl' hL' ?_)
        intro x hx
        rcases List.mem_cons.1 (hsub x (List.mem_cons_of_mem a hx)) with rfl | hxL
        · exact absurd (hla x hx) (lt_irrefl x)
        · exact hxL
      · have haL' : a ∈ L' := by
          rcases List.mem_cons.1 (hsub a (by simp)) with rfl | h
          · exact absurd rfl hab
          · exact h
        refine List.Sublist.cons b (ihL (a :: l') hl hL' ?_)
        intro x hx
        rcases List.mem_cons.1 (hsub x hx) with rfl | hxL
        · rcases List.mem_cons.1 hx with rfl | hxl'
          · exact haL'
          · exact absurd (hLb a haL') (by
              have := hla x hxl'
              omega)
        · exact hxL

section SimplerRange
open SimplerPriorityQueue

theorem popKeys_extend (q : SimplerQ) :
    ∀ (l L : List Int), l.Sublist L → L.Nodup →
      (∀ x ∈ L, x ∉ l → (getBucket q x).getD [] = []) →
      popKeys q l = popKeys q L := by
  intro l L hsub
  induction hsub with
  | slnil => intro _ _; rfl
  | @cons l₁ l₂ b hsub ih =>
    intro hnd hskip
    have hbl : b ∉ l₁ := fun hmem =>
      (List.nodup_cons.1 hnd).1 (hsub.subset hmem)
    have hb : (getBucket q b).getD [] = [] := hskip b (by simp) hbl
    rw [show popKeys q (b :: l₂) = popKeys q l₂ by rw [popKeys, hb]]
    exact ih (List.nodup_cons.1 hnd).2
      (fun x hx hnx => hskip x (List.mem_cons_of_mem b hx) hnx)
  | @cons₂ l₁ l₂ b hsub ih =>
    intro hnd hskip
    cases hb : (getBucket q b).getD [] with
    | nil =>
      rw [popKeys, hb, popKeys, hb]
      refine ih (List.nodup_cons.1 hnd).2 ?_
      intro x hx hnx
      have hxb : x ≠ b := fun he => (List.nodup_cons.1 hnd).1 (he ▸ hx)
      exact hskip x (List.mem_cons_of_mem b hx)
        (fun hmem => (List.mem_cons.1 hmem).elim (fun he => hxb he) hnx)
    | cons c cs =>
      rw [popKeys, hb, popKeys, hb]


theorem simpler_pop_eq_range (q : SimplerQ) (h : KeysGood q) :
    SimplerPriorityQueue.pop q = popKeys q intRange11 := by
  rw [pop]
  apply popKeys_extend
  · apply sorted_lt_sublist
    · have hsort : (List.insertionSort (· ≤ ·) (q.map Prod.fst)).Sorted (· ≤ ·) :=
        List.sorted_insertionSort _ _
      have hnd : (List.insertionSort (· ≤ ·) (q.map Prod.fst)).Nodup :=
        (List.perm_insertionSort _ _).nodup_iff.2 h.2
      exact (List.Pairwise.and hsort hnd).imp
        (fun hc => lt_of_le_of_ne hc.1 hc.2)
    · exact intRange11_pairwise
    · intro x hx
      have hmem : x ∈ q.map Prod.fst := ((List.perm_insertionSort _ _).mem_iff).1 hx
      obtain ⟨kv, hkv, rfl⟩ := List.mem_map.1 hmem
      exact (mem_intRange11 _).2 (h.1 kv hkv)
  · exact intRange11_nodup
  · intro x _ hxl
    have hxkeys : x ∉ q.map Prod.fst :=
      fun hmem => hxl (((List.perm_insertionSort _ _).mem_iff).2 hmem)
    rw [(getBucket_eq_none_iff q x).2 hxkeys]
    rfl

end SimplerRange

/-! ### Index-scan view of the array pop, and the simulation relation -/


theorem idxScan_shift (b : List (Int × String)) (rest : SimpleQ) (l : List Nat) :
    idxScan (b :: rest) (l.map Nat.succ) =
      ((idxScan rest l).1, b :: (idxScan rest l).2) := by
  induction l with
  | nil => rfl
  | cons i l' ih =>
    cases hx : (rest.getD i []).getLast? with
    | some x =>
      simp only [List.map_cons, idxScan, List.getD_cons_succ, hx, List.set_cons_succ]
    | none =>
      simp only [List.map_cons, idxScan, List.getD_cons_succ, hx]
      exact ih

theorem simple_popScan_eq_idxScan (s : SimpleQ) :
    SimplePriorityQueue.popScan s = idxScan s (List.range s.length) := by
  induction s with
  | nil => rfl
  | cons b rest ih =>
    rw [List.length_cons, List.range_succ_eq_map]
    cases hb : b.getLast? with
    | some x =>
      simp only [SimplePriorityQueue.popScan, hb, idxScan, List.getD_cons_zero,
        List.set_cons_zero]
    | none =>
      simp only [SimplePriorityQueue.popScan, hb, idxScan, List.getD_cons_zero]
      rw [idxScan_shift, ← ih]


theorem scan_rel :
    ∀ (l : List Nat) (s : SimpleQ) (t : SimplerQ), SimRel s t → (∀ i ∈ l, i < 11) →
      (idxScan s l).1 =
        (SimplerPriorityQueue.popKeys t (l.map (fun n : Nat => (n : Int)))).1 ∧
      SimRel (idxScan s l).2
        (SimplerPriorityQueue.popKeys t (l.map (fun n : Nat => (n : Int)))).2 := by
  intro l
  induction l with
  | nil => intro s t hrel _; exact ⟨rfl, hrel⟩
  | cons i l' ih =>
    intro s t hrel hmem
    have hi : i < 11 := hmem i (by simp)
    have hb := hrel.buckets i hi
    cases hcs : (SimplerPriorityQueue.getBucket t (i : Int)).getD [] with
    | nil =>
      have hsb : s.getD i [] = [] := by rw [hb, hcs]; rfl
      rw [List.map_cons]
      simp only [idxScan, hsb, List.getLast?_nil, SimplerPriorityQueue.popKeys, hcs]
      exact ih s t hrel (fun j hj => hmem j (by simp [hj]))
    | cons c cs =>
      have hlast : (s.getD i []).getLast? =
          some ((i : Int), (c :: cs).getLast (List.cons_ne_nil c cs)) := by
        rw [hb, hcs, List.getLast?_map,
          List.getLast?_eq_getLast (c :: cs) (List.cons_ne_nil c cs)]
        rfl
      have hgb : SimplerPriorityQueue.getBucket t (i : Int) = some (c :: cs) := by
        cases hg : SimplerPriorityQueue.getBucket t (i : Int) with
        | none => rw [hg] at hcs; simp at hcs
        | some w =>
          rw [hg] at hcs
          simp only [Option.getD_some] at hcs
          rw [hcs]
      rw [List.map_cons]
      have hL : idxScan s (i :: l') =
          (some ((i : Int), (c :: cs).getLast (List.cons_ne_nil c cs)),
           s.set i ((s.getD i []).dropLast)) := by
        simp only [idxScan, hlast]
      have hR : SimplerPriorityQueue.popKeys t
            ((i : Int) :: l'.map (fun n : Nat => (n : Int))) =
          (some ((i : Int), (c :: cs).getLast (List.cons_ne_nil c cs)),
           SimplerPriorityQueue.setBucket t (i : Int) ((c :: cs).dropLast)) := by
        simp only [SimplerPriorityQueue.popKeys, hcs]
      rw [hL, hR]
      constructor
      · rfl
      · refine ⟨?_, ⟨?_, ?_⟩, ?_⟩
        · simp [List.length_set, hrel.len]
        · intro kv hkv
          obtain ⟨kv0, hkv0, rfl⟩ := List.mem_map.1 hkv
          by_cases hk : kv0.1 = (i : Int)
          · rw [if_pos hk]
            refine ⟨?_, ?_⟩
            · show (0 : Int) ≤ (i : Int)
              positivity
            · show ((i : Int)) < 11
              exact_mod_cast hi
          · rw [if_neg hk]
            exact hrel.keys.1 kv0 hkv0
        · rw [show (SimplerPriorityQueue.setBucket t (i : Int) ((c :: cs).dropLast)).map
              Prod.fst = t.map Prod.fst from setBucket_keys t _ _]
          exact hrel.keys.2
        · intro j hj
          by_cases hij : j = i
          · subst hij
            rw [getD_set_self _ _ _ _ (by rw [hrel.len]; exact hj)]
            rw [getBucket_setBucket_self t (j : Int) _ (c :: cs) hgb]
            rw [hb, hcs, Option.getD_some, List.map_dropLast]
          · rw [getD_set_ne _ _ _ _ _ (fun he => hij he.symm)]
            rw [getBucket_setBucket_ne t (i : Int) (j : Int) _
              (fun he => hij (by exact_mod_cast he))]
            exact hrel.buckets j hj

theorem pop_rel (s : SimpleQ) (t : SimplerQ) (hrel : SimRel s t) :
    (SimplePriorityQueue.pop s).1 = (SimplerPriorityQueue.pop t).1 ∧
    SimRel (SimplePriorityQueue.pop s).2 (SimplerPriorityQueue.pop t).2 := by
  have h1 : SimplePriorityQueue.pop s = idxScan s (List.range 11) := by
    rw [show SimplePriorityQueue.pop s = SimplePriorityQueue.popScan s from rfl,
      simple_popScan_eq_idxScan, hrel.len]
  have h2 : SimplerPriorityQueue.pop t = SimplerPriorityQueue.popKeys t intRange11 :=
    simpler_pop_eq_range t hrel.keys
  have h3 := scan_rel (List.range 11) s t hrel (fun i hi => List.mem_range.1 hi)
  rw [h1, h2, show intRange11 = (List.range 11).map (fun n : Nat => (n : Int)) from rfl]
  exact h3

/-! ### Step correspondence: init, add, runs, drains -/

theorem simRel_init : SimRel SimplePriorityQueue.init SimplerPriorityQueue.init := by
  refine ⟨by simp [SimplePriorityQueue.init],
    ⟨by simp [SimplerPriorityQueue.init], by simp [SimplerPriorityQueue.init]⟩, ?_⟩
  intro i _
  rw [SimplePriorityQueue.init, getD_replicate_nil]
  rfl

theorem simple_add_dict1_ok (q : SimpleQ) (a : Int × String) :
    SimplePriorityQueue.add q (.dict [a]) = .ok (SimplePriorityQueue.addPair q a) := by
  obtain ⟨p, c⟩ := a
  cases hpi : pyIndex q.length p <;>
    simp [SimplePriorityQueue.add, SimplePriorityQueue.addPair, hpi]

theorem simpler_add_valid_ok (t : SimplerQ) (p : Int) (c : String)
    (h0 : 0 ≤ p) (h1 : p < 11) :
    SimplerPriorityQueue.add t (.dict [(p, c)]) =
      .ok (SimplerPriorityQueue.addPair t (p, c)) := by
  cases hg : SimplerPriorityQueue.getBucket t p <;>
    simp [SimplerPriorityQueue.add, SimplerPriorityQueue.addPair, hg, h0, h1]

theorem addPair_rel (s : SimpleQ) (t : SimplerQ) (p : Int) (c : String)
    (hrel : SimRel s t) (h0 : 0 ≤ p) (h1 : p < 11) :
    SimRel (SimplePriorityQueue.addPair s (p, c))
      (SimplerPriorityQueue.addPair t (p, c)) := by
  have hsimp : SimplePriorityQueue.addPair s (p, c) =
      s.set p.toNat ((p, c) :: s.getD p.toNat []) :=
    simple_addPair_valid s (p, c) h0 (by rw [hrel.len]; exact_mod_cast h1)
  cases hg : SimplerPriorityQueue.getBucket t p with
  | some cmds =>
    have hsimpr : SimplerPriorityQueue.addPair t (p, c) =
        SimplerPriorityQueue.setBucket t p (c :: cmds) := by
      simp [SimplerPriorityQueue.addPair, SimplerPriorityQueue.add, hg, h0, h1]
    rw [hsimp, hsimpr]
    refine ⟨?_, ⟨?_, ?_⟩, ?_⟩
    · simp [hrel.len]
    · intro kv hkv
      obtain ⟨kv0, hkv0, rfl⟩ := List.mem_map.1 hkv
      by_cases hk : kv0.1 = p
      · rw [if_pos hk]
        exact ⟨h0, h1⟩
      · rw [if_neg hk]
        exact hrel.keys.1 kv0 hkv0
    · rw [show (SimplerPriorityQueue.setBucket t p (c :: cmds)).map Prod.fst =
          t.map Prod.fst from setBucket_keys t _ _]
      exact hrel.keys.2
    · intro j hj
      by_cases hij : (j : Int) = p
      · cases hij
        have htn : ((j : Int)).toNat = j := by omega
        rw [htn, getD_set_self _ _ _ _ (by rw [hrel.len]; exact hj),
          getBucket_setBucket_self t _ _ _ hg, Option.getD_some, List.map_cons,
          hrel.buckets j hj, hg, Option.getD_some]
      · have hjn : p.toNat ≠ j := by omega
        rw [getD_set_ne _ _ _ _ _ hjn,
          getBucket_setBucket_ne t p (j : Int) _ hij, hrel.buckets j hj]
  | none =>
    have hsimpr : SimplerPriorityQueue.addPair t (p, c) = t ++ [(p, [c])] := by
      simp [SimplerPriorityQueue.addPair, SimplerPriorityQueue.add, hg, h0, h1]
    have hpnot : p ∉ t.map Prod.fst := (getBucket_eq_none_iff t p).1 hg
    rw [hsimp, hsimpr]
    refine ⟨?_, ⟨?_, ?_⟩, ?_⟩
    · simp [hrel.len]
    · intro kv hkv
      rcases List.mem_append.1 hkv with hmem | hmem
      · exact hrel.keys.1 kv hmem
      · obtain rfl : kv = (p, [c]) := by simpa using hmem
        exact ⟨h0, h1⟩
    · rw [List.map_append]
      refine List.Nodup.append hrel.keys.2 (by simp) ?_
      intro a ha hb
      simp only [List.map_cons, List.map_nil, List.mem_singleton] at hb
      subst hb
      exact hpnot ha
    · intro j hj
      by_cases hij : (j : Int) = p
      · cases hij
        have htn : ((j : Int)).toNat = j := by omega
        have hempty : s.getD j [] = [] := by
          rw [hrel.buckets j hj, hg]
          rfl
        rw [htn, getD_set_self _ _ _ _ (by rw [hrel.len]; exact hj), hempty,
          getBucket_append_of_none t _ _ hg, if_pos rfl, Option.getD_some]
        rfl
      · have hjn : p.toNat ≠ j := by omega
        rw [getD_set_ne _ _ _ _ _ hjn]
        cases hgj : SimplerPriorityQueue.getBucket t (j : Int) with
        | some w =>
          rw [getBucket_append_of_some t _ _ _ hgj, hrel.buckets j hj, hgj]
        | none =>
          rw [getBucket_append_of_none t _ _ hgj,
            if_neg (fun he => hij he.symm), hrel.buckets j hj, hgj]

theorem exec_rel :
    ∀ (ops : List Op) (s : SimpleQ) (t : SimplerQ), SimRel s t →
      (∀ op ∈ ops, ValidOp op) →
      (SimplePriorityQueue.exec s ops).2 = (SimplerPriorityQueue.exec t ops).2 ∧
      SimRel (SimplePriorityQueue.exec s ops).1 (SimplerPriorityQueue.exec t ops).1 := by
  intro ops
  induction ops with
  | nil => intro s t h _; exact ⟨rfl, h⟩
  | cons op rest ih =>
    intro s t hrel hvalid
    cases op with
    | pop =>
      obtain ⟨hout, hrel'⟩ := pop_rel s t hrel
      obtain ⟨ho, hr⟩ := ih _ _ hrel' (fun o ho => hvalid o (by simp [ho]))
      simp only [SimplePriorityQueue.exec, SimplerPriorityQueue.exec]
      exact ⟨by rw [hout, ho], hr⟩
    | add arg =>
      have hv := hvalid (.add arg) (by simp)
      cases arg with
      | nonDict => exact absurd hv (by simp [ValidOp])
      | dict l =>
        rcases l with _ | ⟨⟨p, c⟩, l'⟩
        · exact absurd hv (by simp [ValidOp])
        rcases l' with _ | ⟨y, l''⟩
        · have h0 : 0 ≤ p ∧ p < 11 := hv
          have hrel' := addPair_rel s t p c hrel h0.1 h0.2
          obtain ⟨ho, hr⟩ := ih _ _ hrel' (fun o ho => hvalid o (by simp [ho]))
          simp only [SimplePriorityQueue.exec, SimplerPriorityQueue.exec,
            simple_add_dict1_ok s (p, c), simpler_add_valid_ok t p c h0.1 h0.2]
          exact ⟨ho, hr⟩
        · exact absurd hv (by simp [ValidOp])

theorem drainAux_rel :
    ∀ (fuel : Nat) (s : SimpleQ) (t : SimplerQ), SimRel s t →
      (SimplePriorityQueue.drainAux fuel s).1 =
        (SimplerPriorityQueue.drainAux fuel t).1 ∧
      SimRel (SimplePriorityQueue.drainAux fuel s).2
        (SimplerPriorityQueue.drainAux fuel t).2 := by
  intro fuel
  induction fuel with
  | zero => intro s t h; exact ⟨rfl, h⟩
  | succ n ih =>
    intro s t hrel
    obtain ⟨hout, hrel'⟩ := pop_rel s t hrel
    rcases hps : SimplePriorityQueue.pop s with ⟨r1, s'⟩
    rcases hpt : SimplerPriorityQueue.pop t with ⟨r2, t'⟩
    rw [hps, hpt] at hout hrel'
    simp only at hout hrel'
    cases r1 with
    | none =>
      rw [← hout] at hpt
      simp only [SimplePriorityQueue.drainAux, SimplerPriorityQueue.drainAux, hps, hpt]
      exact ⟨by trivial, hrel'⟩
    | some x =>
      rw [← hout] at hpt
      obtain ⟨ho, hr⟩ := ih s' t' hrel'
      simp only [SimplePriorityQueue.drainAux, SimplerPriorityQueue.drainAux, hps, hpt]
      exact ⟨by simp [ho], hr⟩

/-! ### Size bookkeeping for the dict implementation, drain equality -/

theorem setBucket_size (t : SimplerQ) (p : Int) (v w : List String)
    (hnd : (t.map Prod.fst).Nodup)
    (hg : SimplerPriorityQueue.getBucket t p = some w) :
    SimplerPriorityQueue.size (SimplerPriorityQueue.setBucket t p v) + w.length =
      SimplerPriorityQueue.size t + v.length := by
  induction t with
  | nil => simp [SimplerPriorityQueue.getBucket] at hg
  | cons kv rest ih =>
    rw [List.map_cons, List.nodup_cons] at hnd
    rw [SimplerPriorityQueue.getBucket] at hg
    by_cases hk : kv.1 = p
    · rw [if_pos hk] at hg
      obtain rfl : kv.2 = w := Option.some.inj hg
      have hrest : SimplerPriorityQueue.setBucket rest p v = rest :=
        setBucket_not_mem rest p v (by rw [← hk]; exact hnd.1)
      show SimplerPriorityQueue.size ((if kv.1 = p then (p, v) else kv) ::
        SimplerPriorityQueue.setBucket rest p v) + _ = _
      rw [if_pos hk, hrest]
      simp only [SimplerPriorityQueue.size, List.map_cons, List.sum_cons]
      omega
    · rw [if_neg hk] at hg
      have := ih hnd.2 hg
      show SimplerPriorityQueue.size ((if kv.1 = p then (p, v) else kv) ::
        SimplerPriorityQueue.setBucket rest p v) + _ = _
      rw [if_neg hk]
      simp only [SimplerPriorityQueue.size, List.map_cons, List.sum_cons] at this ⊢
      omega

theorem simpler_pop_some_size (t : SimplerQ) (i : Int) (c : String) (t' : SimplerQ)
    (hnd : (t.map Prod.fst).Nodup)
    (h : SimplerPriorityQueue.pop t = (some (i, c), t')) :
    SimplerPriorityQueue.size t' + 1 = SimplerPriorityQueue.size t := by
  rw [SimplerPriorityQueue.pop] at h
  obtain ⟨l₁, l₂, _, _, hne, _, hstate⟩ := popKeys_some_char t _ i c t' h
  cases hg : SimplerPriorityQueue.getBucket t i with
  | none => rw [hg] at hne; simp at hne
  | some cs =>
    rw [hg, Option.getD_some] at hne hstate
    have hsz := setBucket_size t i cs.dropLast cs hnd hg
    have hcs : 0 < cs.length := List.length_pos.2 hne
    have hdl : cs.dropLast.length = cs.length - 1 := List.length_dropLast cs
    rw [hstate]
    omega

theorem simpler_size_zero_pop (t : SimplerQ)
    (h : SimplerPriorityQueue.size t = 0) :
    (SimplerPriorityQueue.pop t).1 = none := by
  rw [SimplerPriorityQueue.pop, popKeys_none_iff]
  intro i _
  cases hg : SimplerPriorityQueue.getBucket t i with
  | none => rfl
  | some v =>
    have hmem := getBucket_some_mem t i v hg
    have hz : (t.map fun kv => kv.2.length).sum = 0 := h
    have hv := List.sum_eq_zero_iff.1 hz v.length
      (List.mem_map.2 ⟨(i, v), hmem, rfl⟩)
    simp [List.length_eq_zero.1 hv]

theorem simpler_pop_keysGood (t : SimplerQ) (h : KeysGood t) :
    KeysGood (SimplerPriorityQueue.pop t).2 := by
  have hkeys : ((SimplerPriorityQueue.pop t).2).map Prod.fst = t.map Prod.fst := by
    rw [SimplerPriorityQueue.pop]
    exact popKeys_keys t _
  constructor
  · intro kv hkv
    have hmem : kv.1 ∈ t.map Prod.fst := by
      rw [← hkeys]
      exact List.mem_map_of_mem _ hkv
    obtain ⟨kv0, hkv0, he⟩ := List.mem_map.1 hmem
    rw [← he]
    exact h.1 kv0 hkv0
  · rw [hkeys]
    exact h.2

theorem simpler_drainAux_stable :
    ∀ (n fuel : Nat) (t : SimplerQ), KeysGood t →
      SimplerPriorityQueue.size t ≤ n → n ≤ fuel →
      SimplerPriorityQueue.drainAux fuel t = SimplerPriorityQueue.drainAux n t := by
  intro n
  induction n with
  | zero =>
    intro fuel t hkg hsize _
    have hz : SimplerPriorityQueue.size t = 0 := Nat.le_zero.1 hsize
    have hp := simpler_size_zero_pop t hz
    cases fuel with
    | zero => rfl
    | succ m =>
      rcases hpt : SimplerPriorityQueue.pop t with ⟨r, t'⟩
      rw [hpt] at hp
      simp only at hp
      subst hp
      have h1 : (SimplerPriorityQueue.pop t).1 = none := by rw [hpt]
      have ht' : t' = t := by
        have h2 := popKeys_none_state t
          (List.insertionSort (· ≤ ·) (t.map Prod.fst)) h1
        rw [show SimplerPriorityQueue.popKeys t
          (List.insertionSort (· ≤ ·) (t.map Prod.fst)) =
            SimplerPriorityQueue.pop t from rfl, hpt] at h2
        exact h2
      simp only [SimplerPriorityQueue.drainAux, hpt, ht']
  | succ m ih =>
    intro fuel t hkg hsize hfuel
    cases fuel with
    | zero => omega
    | succ k =>
      rcases hpt : SimplerPriorityQueue.pop t with ⟨r, t'⟩
      cases r with
      | none => simp only [SimplerPriorityQueue.drainAux, hpt]
      | some x =>
        obtain ⟨i, c⟩ := x
        have hsz := simpler_pop_some_size t i c t' hkg.2 hpt
        have hkg' : KeysGood t' := by
          have := simpler_pop_keysGood t hkg
          rw [hpt] at this
          exact this
        simp only [SimplerPriorityQueue.drainAux, hpt]
        rw [ih k t' hkg' (by omega) (by omega)]

theorem drain_rel (s : SimpleQ) (t : SimplerQ) (hrel : SimRel s t) :
    SimplePriorityQueue.drain s = SimplerPriorityQueue.drain t := by
  have h1 : SimplePriorityQueue.drain s =
      (SimplePriorityQueue.drainAux
        (max (SimplePriorityQueue.size s) (SimplerPriorityQueue.size t)) s).1 := by
    rw [SimplePriorityQueue.drain, simple_drainAux_flat (SimplePriorityQueue.size s) s le_rfl,
      simple_drainAux_flat _ s (le_max_left _ _)]
  have h2 : (SimplerPriorityQueue.drainAux
      (max (SimplePriorityQueue.size s) (SimplerPriorityQueue.size t)) t).1 =
      SimplerPriorityQueue.drain t := by
    rw [SimplerPriorityQueue.drain,
      simpler_drainAux_stable (SimplerPriorityQueue.size t) _ t hrel.keys le_rfl
        (le_max_right _ _)]
  rw [h1, ← h2]
  exact (drainAux_rel _ s t hrel).1

theorem build_rel_aux :
    ∀ (adds : List (Int × String)) (s : SimpleQ) (t : SimplerQ), SimRel s t →
      (∀ a ∈ adds, 0 ≤ a.1 ∧ a.1 < 11) →
      SimRel (adds.foldl SimplePriorityQueue.addPair s)
        (adds.foldl SimplerPriorityQueue.addPair t) := by
  intro adds
  induction adds with
  | nil => intro s t h _; exact h
  | cons a as ih =>
    intro s t hrel h
    obtain ⟨p, c⟩ := a
    have ha := h (p, c) (by simp)
    rw [List.foldl_cons, List.foldl_cons]
    exact ih _ _ (addPair_rel s t p c hrel ha.1 ha.2) (fun b hb => h b (by simp [hb]))

theorem build_rel (adds : List (Int × String))
    (h : ∀ a ∈ adds, 0 ≤ a.1 ∧ a.1 < 11) :
    SimRel (SimplePriorityQueue.build adds) (SimplerPriorityQueue.build adds) :=
  build_rel_aux adds _ _ simRel_init h

/-! ### FIFO-within-level trace invariant -/



theorem simple_set_dropLast_tagInv (s : SimpleQ) (i : Nat) (hi : i < s.length)
    (h : TagInv s) : TagInv (s.set i ((s.getD i []).dropLast)) := by
  intro j hj x hx
  rw [List.length_set] at hj
  by_cases hij : j = i
  · subst hij
    rw [getD_set_self _ _ _ _ hi] at hx
    exact h j hj x (List.dropLast_subset _ hx)
  · rw [getD_set_ne _ _ _ _ _ (fun he => hij he.symm)] at hx
    exact h j hj x hx

theorem simple_fifo_trace :
    ∀ (ops : List Op), (∀ op ∈ ops, ValidOp op) →
      ∀ (s : SimpleQ), s.length = 11 → TagInv s →
      ∀ p : Int, 0 ≤ p → p < 11 →
      ∃ r, popsAt p (SimplePriorityQueue.exec s ops).2 ++ r =
        ((s.getD p.toNat []).reverse.map Prod.snd) ++ addsAt p ops := by
  intro ops
  induction ops with
  | nil =>
    intro _ s _ _ p _ _
    refine ⟨(s.getD p.toNat []).reverse.map Prod.snd, ?_⟩
    simp [popsAt, addsAt, SimplePriorityQueue.exec]
  | cons op rest ih =>
    intro hvalid s hlen htag p hp0 hp1
    have hvrest : ∀ o ∈ rest, ValidOp o := fun o ho => hvalid o (by simp [ho])
    cases op with
    | add arg =>
      have hv := hvalid (.add arg) (by simp)
      cases arg with
      | nonDict => exact absurd hv (by simp [ValidOp])
      | dict l =>
        rcases l with _ | ⟨⟨q, c⟩, l'⟩
        · exact absurd hv (by simp [ValidOp])
        rcases l' with _ | ⟨y, l''⟩
        · have hq : 0 ≤ q ∧ q < 11 := hv
          have hadd := simple_add_dict1_ok s (q, c)
          have hstep : SimplePriorityQueue.addPair s (q, c) =
              s.set q.toNat ((q, c) :: s.getD q.toNat []) :=
            simple_addPair_valid s (q, c) hq.1 (by rw [hlen]; exact_mod_cast hq.2)
          have hlen' : (SimplePriorityQueue.addPair s (q, c)).length = 11 := by
            rw [simple_addPair_length]; exact hlen
          have htag' : TagInv (SimplePriorityQueue.addPair s (q, c)) :=
            simple_addPair_tagInv s (q, c) htag hq.1
          obtain ⟨r, hr⟩ := ih hvrest _ hlen' htag' p hp0 hp1
          refine ⟨r, ?_⟩
          have hexec : SimplePriorityQueue.exec s (.add (.dict [(q, c)]) :: rest) =
              SimplePriorityQueue.exec (SimplePriorityQueue.addPair s (q, c)) rest := by
            simp only [SimplePriorityQueue.exec, hadd]
          rw [hexec]
          have haddsAt : addsAt p (.add (.dict [(q, c)]) :: rest) =
              (if q = p then [c] else []) ++ addsAt p rest := by
            rw [addsAt, List.filterMap_cons]
            by_cases hqp : q = p
            · simp only [if_pos hqp]
              rfl
            · simp only [if_neg hqp]
              rfl
          rw [haddsAt]
          by_cases hqp : q = p
          · subst hqp
            have hbucket : (SimplePriorityQueue.addPair s (q, c)).getD q.toNat [] =
                (q, c) :: s.getD q.toNat [] := by
              rw [hstep]
              exact getD_set_self _ _ _ _ (by rw [hlen]; omega)
            rw [hr, hbucket, if_pos rfl]
            simp [List.map_append]
          · have hbucket : (SimplePriorityQueue.addPair s (q, c)).getD p.toNat [] =
                s.getD p.toNat [] := by
              rw [hstep]
              exact getD_set_ne _ _ _ _ _ (by omega)
            rw [hr, hbucket, if_neg hqp]
            simp
        · exact absurd hv (by simp [ValidOp])
    | pop =>
      rcases hps : SimplePriorityQueue.pop s with ⟨r0, s'⟩
      have hexec : (SimplePriorityQueue.exec s (.pop :: rest)).2 =
          r0 :: (SimplePriorityQueue.exec s' rest).2 := by
        simp only [SimplePriorityQueue.exec, hps]
      have haddsAt : addsAt p (.pop :: rest) = addsAt p rest := by
        rw [addsAt, List.filterMap_cons]
        rfl
      rw [hexec, haddsAt]
      cases r0 with
      | none =>
        have h1 : (SimplePriorityQueue.popScan s).1 = none := by
          rw [show SimplePriorityQueue.popScan s = SimplePriorityQueue.pop s from rfl,
            hps]
        have hs' : s' = s := by
          have := simple_popScan_none_state s h1
          rw [show SimplePriorityQueue.popScan s = SimplePriorityQueue.pop s from rfl,
            hps] at this
          exact this
        obtain ⟨r, hr⟩ := ih hvrest s hlen htag p hp0 hp1
        refine ⟨r, ?_⟩
        rw [hs']
        rw [show popsAt p (none :: (SimplePriorityQueue.exec s rest).2) =
          popsAt p (SimplePriorityQueue.exec s rest).2 from by
            rw [popsAt, List.filterMap_cons]; rfl]
        exact hr
      | some x =>
        obtain ⟨i, hilen, hbelow, hne, hlast, hset⟩ := simple_popScan_char s x s' hps
        have hximem : x ∈ s.getD i [] := List.mem_of_getLast?_eq_some hlast
        have hx1 : x.1 = (i : Int) := htag i hilen x hximem
        have hlen' : s'.length = 11 := by rw [hset, List.length_set]; exact hlen
        have htag' : TagInv s' := by
          rw [hset]
          exact simple_set_dropLast_tagInv s i hilen htag
        obtain ⟨r, hr⟩ := ih hvrest s' hlen' htag' p hp0 hp1
        obtain ⟨x1, x2⟩ := x
        by_cases hxp : x1 = p
        · subst hxp
          have hip : i = x1.toNat := by
            simp only at hx1
            omega
          have hpops : popsAt x1 (some (x1, x2) :: (SimplePriorityQueue.exec s' rest).2) =
              x2 :: popsAt x1 (SimplePriorityQueue.exec s' rest).2 := by
            simp [popsAt]
          have hs'bucket : s'.getD i [] = (s.getD i []).dropLast := by
            rw [hset]
            exact getD_set_self _ _ _ _ hilen
          have hsplit : (s.getD i []).dropLast ++ [(x1, x2)] = s.getD i [] :=
            List.dropLast_append_getLast? _ hlast
          have hrev : (s.getD i []).reverse.map Prod.snd =
              x2 :: ((s.getD i []).dropLast.reverse.map Prod.snd) := by
            conv_lhs => rw [← hsplit]
            simp
          refine ⟨r, ?_⟩
          rw [hpops, List.cons_append, ← hip, hrev, List.cons_append]
          rw [← hip, hs'bucket] at hr
          exact congrArg (List.cons x2) hr
        · have hbne : i ≠ p.toNat := by
            simp only at hx1
            omega
          have hpops : popsAt p (some (x1, x2) :: (SimplePriorityQueue.exec s' rest).2) =
              popsAt p (SimplePriorityQueue.exec s' rest).2 := by
            simp [popsAt, hxp]
          have hs'bucket : s'.getD p.toNat [] = s.getD p.toNat [] := by
            rw [hset]
            exact getD_set_ne _ _ _ _ _ hbne
          refine ⟨r, ?_⟩
          rw [hpops]
          rw [hs'bucket] at hr
          exact hr

/-! ### Lowest-level characterisation of pop, and reachability -/

theorem simpler_pop_some_char (t : SimplerQ) (p : Int) (c : String) (t' : SimplerQ)
    (h : SimplerPriorityQueue.pop t = (some (p, c), t')) :
    (SimplerPriorityQueue.getBucket t p).getD [] ≠ [] ∧
    ((SimplerPriorityQueue.getBucket t p).getD []).getLast? = some c ∧
    ∀ j : Int, j < p → (SimplerPriorityQueue.getBucket t j).getD [] = [] := by
  rw [SimplerPriorityQueue.pop] at h
  obtain ⟨l₁, l₂, hsplit, hempty, hne, hlast, _⟩ := popKeys_some_char t _ p c t' h
  refine ⟨hne, hlast, ?_⟩
  intro j hj
  by_cases hjk : j ∈ t.map Prod.fst
  · have hjl : j ∈ List.insertionSort (· ≤ ·) (t.map Prod.fst) :=
      ((List.perm_insertionSort _ _).mem_iff).2 hjk
    rw [hsplit] at hjl
    have hsorted : (l₁ ++ p :: l₂).Sorted (· ≤ ·) := by
      rw [← hsplit]
      exact List.sorted_insertionSort _ _
    rcases List.mem_append.1 hjl with hmem | hmem
    · exact hempty j hmem
    · rcases List.mem_cons.1 hmem with rfl | hmem'
      · omega
      · have := (List.pairwise_cons.1 (List.pairwise_append.1 hsorted).2.1).1 j hmem'
        omega
  · rw [(getBucket_eq_none_iff t j).2 hjk]
    rfl

theorem simpler_pop_none_iff (t : SimplerQ) (hnd : (t.map Prod.fst).Nodup) :
    (SimplerPriorityQueue.pop t).1 = none ↔ ∀ kv ∈ t, kv.2 = [] := by
  rw [SimplerPriorityQueue.pop, popKeys_none_iff]
  constructor
  · intro h kv hkv
    have hb := h kv.1
      (((List.perm_insertionSort _ _).mem_iff).2 (List.mem_map_of_mem _ hkv))
    rw [getBucket_of_nodup t kv hnd hkv] at hb
    simpa using hb
  · intro h i _
    cases hg : SimplerPriorityQueue.getBucket t i with
    | none => rfl
    | some v =>
      have hv := h (i, v) (getBucket_some_mem t i v hg)
      simpa using hv

theorem simpler_setBucket_keysGood (t : SimplerQ) (p : Int) (v : List String)
    (h : KeysGood t) (h0 : 0 ≤ p) (h1 : p < 11) :
    KeysGood (SimplerPriorityQueue.setBucket t p v) := by
  constructor
  · intro kv hkv
    obtain ⟨kv0, hkv0, rfl⟩ := List.mem_map.1 hkv
    by_cases hk : kv0.1 = p
    · rw [if_pos hk]
      exact ⟨h0, h1⟩
    · rw [if_neg hk]
      exact h.1 kv0 hkv0
  · rw [show (SimplerPriorityQueue.setBucket t p v).map Prod.fst =
      t.map Prod.fst from setBucket_keys t _ _]
    exact h.2

theorem simpler_add_keysGood (t : SimplerQ) (arg : PyArg) (t' : SimplerQ)
    (h : KeysGood t) (ha : SimplerPriorityQueue.add t arg = .ok t') : KeysGood t' := by
  cases arg with
  | nonDict => simp [SimplerPriorityQueue.add] at ha
  | dict l =>
    rcases l with _ | ⟨⟨p, c⟩, l'⟩
    · simp [SimplerPriorityQueue.add] at ha
    rcases l' with _ | ⟨y, l''⟩
    · by_cases hcond : 0 ≤ p ∧ p < 11
      · cases hg : SimplerPriorityQueue.getBucket t p with
        | some cmds =>
          rw [SimplerPriorityQueue.add, if_pos hcond, hg] at ha
          obtain rfl := Except.ok.inj ha
          exact simpler_setBucket_keysGood t p (c :: cmds) h hcond.1 hcond.2
        | none =>
          rw [SimplerPriorityQueue.add, if_pos hcond, hg] at ha
          obtain rfl := Except.ok.inj ha
          have hpnot : p ∉ t.map Prod.fst := (getBucket_eq_none_iff t p).1 hg
          constructor
          · intro kv hkv
            rcases List.mem_append.1 hkv with hmem | hmem
            · exact h.1 kv hmem
            · obtain rfl : kv = (p, [c]) := by simpa using hmem
              exact hcond
          · rw [List.map_append]
            refine List.Nodup.append h.2 (by simp) ?_
            intro a ha' hb
            simp only [List.map_cons, List.map_nil, List.mem_singleton] at hb
            subst hb
            exact hpnot ha'
      · rw [SimplerPriorityQueue.add, if_neg hcond] at ha
        simp at ha
    · simp [SimplerPriorityQueue.add] at ha

theorem simpler_exec_keysGood :
    ∀ (ops : List Op) (t : SimplerQ), KeysGood t →
      KeysGood (SimplerPriorityQueue.exec t ops).1 := by
  intro ops
  induction ops with
  | nil => intro t h; exact h
  | cons op rest ih =>
    intro t h
    cases op with
    | pop =>
      show KeysGood (SimplerPriorityQueue.exec (SimplerPriorityQueue.pop t).2 rest).1
      exact ih _ (simpler_pop_keysGood t h)
    | add arg =>
      cases ha : SimplerPriorityQueue.add t arg with
      | ok t' =>
        have : (SimplerPriorityQueue.exec t (.add arg :: rest)).1 =
            (SimplerPriorityQueue.exec t' rest).1 := by
          simp only [SimplerPriorityQueue.exec, ha]
        rw [this]
        exact ih t' (simpler_add_keysGood t arg t' h ha)
      | error e =>
        have : (SimplerPriorityQueue.exec t (.add arg :: rest)).1 =
            (SimplerPriorityQueue.exec t rest).1 := by
          simp only [SimplerPriorityQueue.exec, ha]
        rw [this]
        exact ih t h



theorem simpler_reachable_keysGood (t : SimplerQ) (h : ReachableSimpler t) :
    KeysGood t := by
  obtain ⟨ops, hops⟩ := h
  rw [← hops]
  exact simpler_exec_keysGood ops _
    ⟨by simp [SimplerPriorityQueue.init], by simp [SimplerPriorityQueue.init]⟩

/-! ### The claims -/


theorem scenarioOps_valid : ∀ op ∈ scenarioOps, ValidOp op := by
  intro op hop
  fin_cases hop <;> trivial

/-- C1: for every sequence of valid `add` calls (single-entry dict `{p: c}`
with integer `p` in `[0,10]`) followed by a full drain via repeated `pop`,
the sequence of popped priorities is non-decreasing, for both the
array-of-buckets and the dictionary-of-buckets implementation. -/
theorem claim1_priority_ordering (adds : List (Int × String))
    (h : ∀ a ∈ adds, 0 ≤ a.1 ∧ a.1 ≤ 10) :
    ((SimplePriorityQueue.drain (SimplePriorityQueue.build adds)).map
      Prod.fst).Sorted (· ≤ ·) ∧
    ((SimplerPriorityQueue.drain (SimplerPriorityQueue.build adds)).map
      Prod.fst).Sorted (· ≤ ·) := by
  have h' : ∀ a ∈ adds, 0 ≤ a.1 ∧ a.1 < 11 := fun a ha =>
    ⟨(h a ha).1, by have := (h a ha).2; omega⟩
  have htag : TagInv (SimplePriorityQueue.build adds) :=
    simple_foldl_tagInv adds SimplePriorityQueue.init simple_tagInv_init
      (fun a ha => (h a ha).1)
  have hsorted :
      ((SimplePriorityQueue.drain (SimplePriorityQueue.build adds)).map
        Prod.fst).Sorted (· ≤ ·) := by
    rw [simple_drain_eq_flat]
    exact simple_flat_sorted _ htag
  refine ⟨hsorted, ?_⟩
  rw [← drain_rel _ _ (build_rel adds h')]
  exact hsorted

theorem claim1_witness :
    ((SimplePriorityQueue.drain (SimplePriorityQueue.build
      [(3, "a"), (0, "b")])).map Prod.fst).Sorted (· ≤ ·) ∧
    ((SimplerPriorityQueue.drain (SimplerPriorityQueue.build
      [(3, "a"), (0, "b")])).map Prod.fst).Sorted (· ≤ ·) :=
  claim1_priority_ordering [(3, "a"), (0, "b")] (by
    intro a ha
    fin_cases ha <;> exact ⟨by norm_num, by norm_num⟩)

/-- C2: items inserted at one priority level come back in FIFO order:
over any valid call sequence, the commands popped at level `p`, in order,
form a prefix of the commands added at level `p`, in order — regardless of
the interleaved activity at other levels.  Holds for both implementations. -/
theorem claim2_fifo (ops : List Op) (hv : ∀ op ∈ ops, ValidOp op) (p : Int)
    (hp : 0 ≤ p ∧ p < 11) :
    (∃ r, popsAt p (SimplePriorityQueue.exec SimplePriorityQueue.init ops).2 ++ r =
      addsAt p ops) ∧
    (∃ r, popsAt p (SimplerPriorityQueue.exec SimplerPriorityQueue.init ops).2 ++ r =
      addsAt p ops) := by
  have hinit : (SimplePriorityQueue.init.getD p.toNat []) = [] := by
    rw [SimplePriorityQueue.init, getD_replicate_nil]
  obtain ⟨r, hr⟩ := simple_fifo_trace ops hv SimplePriorityQueue.init
    (by simp [SimplePriorityQueue.init]) simple_tagInv_init p hp.1 hp.2
  rw [hinit] at hr
  simp only [List.reverse_nil, List.map_nil, List.nil_append] at hr
  have houts := (exec_rel ops _ _ simRel_init hv).1
  exact ⟨⟨r, hr⟩, ⟨r, by rw [← houts]; exact hr⟩⟩

theorem claim2_witness :
    (∃ r, popsAt 7 (SimplePriorityQueue.exec SimplePriorityQueue.init
      scenarioOps).2 ++ r = addsAt 7 scenarioOps) ∧
    (∃ r, popsAt 7 (SimplerPriorityQueue.exec SimplerPriorityQueue.init
      scenarioOps).2 ++ r = addsAt 7 scenarioOps) :=
  claim2_fifo scenarioOps scenarioOps_valid 7 (by norm_num)

/-- C3 (the claim is right, the array implementation is wrong): on
`SimplePriorityQueue`, `add` with priority `-1` raises nothing and actually
stores the item in the priority-10 bucket (the queue changes), and `add`
with priority `11` returns normally after only printing a warning (the
`IndexError` is swallowed).  `SimplerPriorityQueue` raises on both, leaving
the queue unchanged, as the claim demands. -/
theorem claim3_range_swallowed :
    SimplePriorityQueue.add SimplePriorityQueue.init (.dict [(-1, "x")]) =
      .ok (SimplePriorityQueue.init.set 10 [(-1, "x")]) ∧
    SimplePriorityQueue.init.set 10 [(-1, "x")] ≠ SimplePriorityQueue.init ∧
    SimplePriorityQueue.add SimplePriorityQueue.init (.dict [(11, "x")]) =
      .ok SimplePriorityQueue.init ∧
    SimplerPriorityQueue.add SimplerPriorityQueue.init (.dict [(-1, "x")]) =
      .error .outOfRange ∧
    SimplerPriorityQueue.add SimplerPriorityQueue.init (.dict [(11, "x")]) =
      .error .outOfRange := by
  refine ⟨rfl, by decide, rfl, rfl, rfl⟩

/-- C4: the spec's concrete scenario: six `add` calls then a full drain
produce exactly the six items in priority order and then the empty signal,
in both implementations. -/
theorem claim4_scenario :
    (SimplePriorityQueue.exec SimplePriorityQueue.init scenarioOps).2 =
      scenarioOut ∧
    (SimplerPriorityQueue.exec SimplerPriorityQueue.init scenarioOps).2 =
      scenarioOut := by
  exact ⟨by decide, by decide⟩

/-- C5: the two implementations are observationally equivalent: every
interleaved sequence of valid `add` and `pop` calls returns the same result
from every `pop`. -/
theorem claim5_equiv (ops : List Op) (hv : ∀ op ∈ ops, ValidOp op) :
    (SimplePriorityQueue.exec SimplePriorityQueue.init ops).2 =
    (SimplerPriorityQueue.exec SimplerPriorityQueue.init ops).2 :=
  (exec_rel ops _ _ simRel_init hv).1

theorem claim5_witness :
    (SimplePriorityQueue.exec SimplePriorityQueue.init scenarioOps).2 =
    (SimplerPriorityQueue.exec SimplerPriorityQueue.init scenarioOps).2 :=
  claim5_equiv scenarioOps scenarioOps_valid

/-- C6 (the claim is right, the array implementation is wrong on its second
half): `pop` on the empty queue returns `None` (no exception), but after the
`add` call `add({11: "x"})` — which returns normally because the
`IndexError` is caught and only printed — `pop` still returns the empty
signal, contradicting "immediately after any `add` call, `pop` returns a
real item". -/
theorem claim6_empty_signal :
    (SimplePriorityQueue.pop SimplePriorityQueue.init).1 = none ∧
    SimplePriorityQueue.add SimplePriorityQueue.init (.dict [(11, "x")]) =
      .ok SimplePriorityQueue.init ∧
    (SimplePriorityQueue.pop
      ((SimplePriorityQueue.exec SimplePriorityQueue.init
        [.add (.dict [(11, "x")])]).1)).1 = none := by
  exact ⟨rfl, rfl, rfl⟩

/-- C7 (the claim is right, the array implementation is wrong): conservation
over the lifetime counts `add` calls that returned normally, and in
`SimplePriorityQueue` the call `add({11: "x"})` returns normally — the
`IndexError` is caught inside `add` and only a warning is printed — while
enqueueing nothing.  Over the lifetime consisting of that one add followed
by a full drain, the single `pop` returns the empty signal: one add
returned normally, zero pops returned a real item, and the payload `"x"` is
lost.  `SimplerPriorityQueue` conforms: the same call raises, so it does
not count as an add that returned normally. -/
theorem claim7_lifetime_bug :
    SimplePriorityQueue.add SimplePriorityQueue.init (.dict [(11, "x")]) =
      .ok SimplePriorityQueue.init ∧
    (SimplePriorityQueue.exec SimplePriorityQueue.init
      [.add (.dict [(11, "x")]), .pop]).2 = [none] ∧
    SimplerPriorityQueue.add SimplerPriorityQueue.init (.dict [(11, "x")]) =
      .error .outOfRange := by
  exact ⟨rfl, rfl, rfl⟩

/-- C8: in every reachable state, `pop` returns the empty signal iff every
bucket is empty, and a returned item is the oldest item of the
lowest-numbered non-empty bucket — for the array implementation (buckets
below the popped index are all empty) and for the dict implementation
(every register at a smaller key is absent or empty). -/
theorem claim8_lowest_bucket :
    (∀ s : SimpleQ, ReachableSimple s →
      (((SimplePriorityQueue.pop s).1 = none ↔ ∀ b ∈ s, b = []) ∧
       ∀ x s', SimplePriorityQueue.pop s = (some x, s') →
         ∃ i, i < s.length ∧ (∀ j, j < i → s.getD j [] = []) ∧
           s.getD i [] ≠ [] ∧ (s.getD i []).getLast? = some x)) ∧
    (∀ t : SimplerQ, ReachableSimpler t →
      (((SimplerPriorityQueue.pop t).1 = none ↔ ∀ kv ∈ t, kv.2 = []) ∧
       ∀ p c t', SimplerPriorityQueue.pop t = (some (p, c), t') →
         (SimplerPriorityQueue.getBucket t p).getD [] ≠ [] ∧
         ((SimplerPriorityQueue.getBucket t p).getD []).getLast? = some c ∧
         ∀ j : Int, j < p → (SimplerPriorityQueue.getBucket t j).getD [] = [])) := by
  constructor
  · intro s _
    constructor
    · exact simple_popScan_none_iff s
    · intro x s' h
      obtain ⟨i, h1, h2, h3, h4, _⟩ := simple_popScan_char s x s' h
      exact ⟨i, h1, h2, h3, h4⟩
  · intro t ht
    have hkg : KeysGood t := simpler_reachable_keysGood t ht
    constructor
    · exact simpler_pop_none_iff t hkg.2
    · intro p c t' h
      exact simpler_pop_some_char t p c t' h

theorem claim8_witness :
    ((SimplePriorityQueue.pop SimplePriorityQueue.init).1 = none ↔
      ∀ b ∈ SimplePriorityQueue.init, b = []) ∧
    ((SimplerPriorityQueue.pop SimplerPriorityQueue.init).1 = none ↔
      ∀ kv ∈ SimplerPriorityQueue.init, kv.2 = []) :=
  ⟨(claim8_lowest_bucket.1 SimplePriorityQueue.init ⟨[], rfl⟩).1,
   (claim8_lowest_bucket.2 SimplerPriorityQueue.init ⟨[], rfl⟩).1⟩

/-- C9: in every queue state, an `add` whose argument is not a dict with
exactly one entry fails synchronously with the malformed-item `TypeError`,
in both implementations; the error is returned to the caller, not caught
inside the queue. -/
theorem claim9_malformed (q : SimpleQ) (t : SimplerQ) (arg : PyArg)
    (h : MalformedArg arg) :
    SimplePriorityQueue.add q arg = .error .malformed ∧
    SimplerPriorityQueue.add t arg = .error .malformed := by
  cases arg with
  | nonDict => exact ⟨rfl, rfl⟩
  | dict l =>
    rcases l with _ | ⟨a, _ | ⟨b, l''⟩⟩
    · exact ⟨rfl, rfl⟩
    · simp [MalformedArg] at h
    · exact ⟨rfl, rfl⟩

theorem claim9_witness :
    MalformedArg (.dict ([] : List (Int × String))) ∧
    SimplePriorityQueue.add SimplePriorityQueue.init
      (.dict ([] : List (Int × String))) = .error .malformed ∧
    SimplerPriorityQueue.add SimplerPriorityQueue.init
      (.dict ([] : List (Int × String))) = .error .malformed :=
  ⟨by simp [MalformedArg],
   (claim9_malformed SimplePriorityQueue.init SimplerPriorityQueue.init
     (.dict []) (by simp [MalformedArg])).1,
   (claim9_malformed SimplePriorityQueue.init SimplerPriorityQueue.init
     (.dict []) (by simp [MalformedArg])).2⟩

/-- C10 counterexample: `add({5: "x"})` then `add({-11: "y"})` raises
nothing, stores the `-11` item in bucket `-11 + 11 = 0`, and the drain
returns `(-11, "y")` before `(5, "x")` although `5` is numerically greater
than `-11` — refuting "the drain returns the negative-priority item after
items whose priorities are numerically greater". -/
theorem claim10_counterexample :
    SimplePriorityQueue.add (SimplePriorityQueue.build [(5, "x")])
      (.dict [(-11, "y")]) =
      .ok (SimplePriorityQueue.build [(5, "x"), (-11, "y")]) ∧
    SimplePriorityQueue.drain (SimplePriorityQueue.build [(5, "x"), (-11, "y")]) =
      [(-11, "y"), (5, "x")] ∧
    ((-11 : Int) < 5) := by
  exact ⟨rfl, by decide, by decide⟩

/-- C10 as amended: on an 11-bucket array state, `add` with a single-entry
dict whose priority `p` satisfies `-11 ≤ p ≤ -1` raises no error and stores
the item — still tagged `p` — at the front of the bucket at index `p + 11`
(Python negative indexing); a later drain returns the buckets in index
order, each oldest-first, so the item surfaces in the drain position of
bucket `p + 11`, not necessarily after numerically greater priorities. -/
theorem claim10_negative_index (q : SimpleQ) (p : Int) (c : String)
    (hq : q.length = 11) (h1 : -11 ≤ p) (h2 : p ≤ -1) :
    SimplePriorityQueue.add q (.dict [(p, c)]) =
      .ok (q.set (p + 11).toNat ((p, c) :: q.getD (p + 11).toNat [])) ∧
    SimplePriorityQueue.drain
        (q.set (p + 11).toNat ((p, c) :: q.getD (p + 11).toNat [])) =
      simpleFlat (q.set (p + 11).toNat ((p, c) :: q.getD (p + 11).toNat [])) := by
  have hpi : pyIndex q.length p = some (p + 11).toNat := by
    rw [pyIndex, hq]
    rw [if_neg (by omega), if_pos (by omega)]
    norm_num
  exact ⟨by simp [SimplePriorityQueue.add, hpi], simple_drain_eq_flat _⟩

theorem claim10_witness :
    SimplePriorityQueue.add SimplePriorityQueue.init (.dict [(-1, "x")]) =
      .ok (SimplePriorityQueue.init.set ((-1 : Int) + 11).toNat
        ((-1, "x") :: SimplePriorityQueue.init.getD ((-1 : Int) + 11).toNat [])) ∧
    SimplePriorityQueue.drain
        (SimplePriorityQueue.init.set ((-1 : Int) + 11).toNat
          ((-1, "x") :: SimplePriorityQueue.init.getD ((-1 : Int) + 11).toNat [])) =
      simpleFlat (SimplePriorityQueue.init.set ((-1 : Int) + 11).toNat
        ((-1, "x") :: SimplePriorityQueue.init.getD ((-1 : Int) + 11).toNat [])) :=
  claim10_negative_index SimplePriorityQueue.init (-1) "x" (by decide)
    (by norm_num) (by norm_num)
